import Mathlib

/-!
Verification of the velbuspy core, shallowly embedded in Lean 4.

The embedding covers:
* the per-module delayed-call scheduler of
  `src/velbus/VelbusModule/VelbusModule.py` (`DelayedCall`, the
  `SortedList` process queue, `_delayed_call`, `_schedule_next_delayed_call`,
  the `delayed_calls` setter and `datetime_to_relative_seconds`);
* HTTP dispatch of the same file (`lookup_method`, `dispatch`);
* the declarative bit-packed message codec and the (command, payload length)
  schema registry, with the concrete schemas of `ModuleStatus.py`,
  `SensorSettings.py` and `SensorSettingsRequest.py`;
* the JSON-patch state synchronization contract.

Python `datetime` values are modelled as integer timestamps (a fixed tick
unit, e.g. microseconds; `timedelta.total_seconds` is then an exact integer
difference) together with an awareness flag: `aware = true` models
`tzinfo = datetime.timezone.utc`, `aware = false` models a naive datetime.
The only timezone occurring in the source is UTC, so an aware datetime's
absolute time equals its clock reading `t`.
-/

/-- Python `datetime.datetime`, reduced to the features the source uses:
an integer clock reading and whether a (UTC) timezone is attached. -/
structure PyDateTime where
  t : Int
  aware : Bool
deriving DecidableEq, Repr

/-- The `DelayedCall` dataclass: a fire time (`None` allowed before
normalization) plus an opaque payload distinguishing entries.
`ctx` stands for the extra attributes subclasses add. -/
structure DelayedCall where
  when : Option PyDateTime
  ctx : Nat
deriving DecidableEq, Repr

/-- An `asyncio.TimerHandle` created by `call_later(delay, cb)`:
identified by a fresh id, remembering the requested delay. -/
structure TimerHandle where
  id : Nat
  delay : Int
deriving DecidableEq, Repr

/-- The scheduler-relevant state of one `VelbusModule` instance, together
with the event loop's view of its timers.
`processQueue` models `self._process_queue` (a `SortedList` keyed on
`e.when`), `nextDelayedCall` models `self._next_delayed_call`.
`loopTimers` models the set of not-yet-cancelled, not-yet-fired timer
handles the event loop holds for this module; `nextTimerId` supplies
fresh handle identities. -/
structure ModuleScheduler where
  processQueue : List DelayedCall
  nextDelayedCall : Option TimerHandle
  loopTimers : List TimerHandle
  nextTimerId : Nat
deriving DecidableEq, Repr

/-- The sort key of the process queue: `key=lambda e: e.when`.  Queued
entries always have an aware `when` (the setter normalizes them), and
aware-UTC datetimes compare by their clock reading. `none` never occurs
in the queue; it is mapped to an arbitrary value. -/
def callKey (c : DelayedCall) : Int :=
  match c.when with
  | some d => d.t
  | none => 0

/-- The `when` of a queued (normalized) call. -/
def callWhen (c : DelayedCall) : PyDateTime :=
  c.when.getD ⟨0, true⟩

/-- Static method `VelbusModule.datetime_to_relative_seconds`: naive datetimes are
assumed UTC, then the difference to the reference is returned (exact,
in ticks; the source returns float seconds of an exact `timedelta`). -/
def datetime_to_relative_seconds (timestamp : PyDateTime) (reference : PyDateTime) : Int :=
  let reference := if reference.aware then reference else { reference with aware := true }
  let timestamp := if timestamp.aware then timestamp else { timestamp with aware := true }
  timestamp.t - reference.t

/-- Lines 198-202 of the `delayed_calls` setter: a `None` fire time
becomes `now` (UTC-aware), a naive fire time is stamped UTC keeping its
clock reading. -/
def normalizeCall (now : Int) (c : DelayedCall) : DelayedCall :=
  match c.when with
  | none => { c with when := some ⟨now, true⟩ }
  | some d => if d.aware then c else { c with when := some ⟨d.t, true⟩ }

/-- Method `SortedList.add`: insert keeping the queue sorted by `callKey`;
`sortedcontainers` bisects to the right, so the new entry goes after all
entries with an equal key (stable for ties). -/
def sortedAdd (c : DelayedCall) : List DelayedCall → List DelayedCall
  | [] => [c]
  | x :: xs => if callKey x ≤ callKey c then x :: sortedAdd c xs else c :: x :: xs

/-- The queue contents produced by the `delayed_calls` setter body:
clear, then for each entry of `value` in order, normalize it and
`SortedList.add` it. -/
def buildQueue (now : Int) (value : List DelayedCall) : List DelayedCall :=
  (value.map (normalizeCall now)).foldl (fun q c => sortedAdd c q) []

/-- Cancellation `self._next_delayed_call.cancel()` followed by resetting the
attribute (lines 179-181): the handle disappears from the event loop. -/
def cancelNext (s : ModuleScheduler) : ModuleScheduler :=
  match s.nextDelayedCall with
  | some h =>
      { s with
        loopTimers := s.loopTimers.filter (fun x => x.id != h.id)
        nextDelayedCall := none }
  | none => s

/-- Method `VelbusModule._schedule_next_delayed_call` at clock reading `now`:
cancel the previous handle (if any); if the queue is empty stop,
otherwise `call_later` a fresh handle for the head entry's relative
delay. -/
def scheduleNext (now : Int) (s : ModuleScheduler) : ModuleScheduler :=
  let s1 := cancelNext s
  match s1.processQueue with
  | [] => s1
  | c :: _ =>
      let h : TimerHandle :=
        ⟨s1.nextTimerId, datetime_to_relative_seconds (callWhen c) ⟨now, true⟩⟩
      { s1 with
        nextDelayedCall := some h
        loopTimers := s1.loopTimers ++ [h]
        nextTimerId := s1.nextTimerId + 1 }

/-- Is a queued call due at clock reading `now` (`e.when <= now`)? -/
def dueB (now : Int) (c : DelayedCall) : Bool :=
  decide (callKey c ≤ now)

/-- The `while` loop of `VelbusModule._delayed_call`: pop and invoke the
head entry while it is due; returns (invoked entries in pop order,
remaining queue). -/
def fireLoop (now : Int) : List DelayedCall → List DelayedCall × List DelayedCall
  | [] => ([], [])
  | c :: rest =>
      if callKey c ≤ now then
        let r := fireLoop now rest
        (c :: r.1, r.2)
      else ([], c :: rest)

/-- Method `VelbusModule._delayed_call`: drain the due entries (each invocation
is detached via `ensure_future`, never blocking the loop), then re-arm. -/
def onTimerFire (now : Int) (s : ModuleScheduler) : List DelayedCall × ModuleScheduler :=
  let r := fireLoop now s.processQueue
  (r.1, scheduleNext now { s with processQueue := r.2 })

/-- Setter `delayed_calls` (lines 194-206): clear the queue,
normalize and add every entry of `value` in order, then re-arm. -/
def setDelayedCalls (now : Int) (value : List DelayedCall) (s : ModuleScheduler) : ModuleScheduler :=
  scheduleNext now { s with processQueue := buildQueue now value }

/-- The state right after `VelbusModule.__init__`: empty queue, no timer. -/
def emptySched : ModuleScheduler := ⟨[], none, [], 0⟩

/-- The process queue is sorted by fire time (nondecreasing key). -/
def queueSorted (q : List DelayedCall) : Prop :=
  List.Pairwise (fun a b => callKey a ≤ callKey b) q

/-- The runtime's timer-handle invariant: the event loop holds exactly
the handle referenced by `_next_delayed_call` (none or one), and every
referenced handle was created earlier than the next fresh id. -/
def timersInv (s : ModuleScheduler) : Prop :=
  s.loopTimers = s.nextDelayedCall.toList ∧
    ∀ h ∈ s.nextDelayedCall.toList, h.id < s.nextTimerId

/-- Conclusion of the re-arm claim, packaged: the invariant is preserved,
at most one timer is outstanding, the previous handle is gone, and the
armed timer (if any) targets the earliest queued entry. -/
def rearmOk (now : Int) (s : ModuleScheduler) : Prop :=
  timersInv (scheduleNext now s) ∧
  (scheduleNext now s).loopTimers.length ≤ 1 ∧
  (∀ hOld, s.nextDelayedCall = some hOld → hOld ∉ (scheduleNext now s).loopTimers) ∧
  (s.processQueue = [] →
    (scheduleNext now s).nextDelayedCall = none ∧ (scheduleNext now s).loopTimers = []) ∧
  (∀ c rest, s.processQueue = c :: rest →
    ∃ h, (scheduleNext now s).nextDelayedCall = some h ∧
      (scheduleNext now s).loopTimers = [h] ∧
      h.delay = datetime_to_relative_seconds (callWhen c) ⟨now, true⟩)

/-! HTTP dispatch: `lookup_method` and `dispatch`. -/

/-- A sanic HTTP response, reduced to status and body. -/
structure HttpResponse where
  status : Nat
  body : String
deriving DecidableEq, Repr

/-- A bound sub-resource handler; it receives the remaining path
(`module_path[1]`).  Request and bus do not influence dispatch. -/
def Handler : Type := String → HttpResponse

/-- The attribute table of a module object: the names for which
`getattr` finds a callable handler. -/
structure PyModule where
  methods : List (String × Handler)

/-- Attribute lookup `getattr(self, name)`: `none` models the raised `AttributeError`. -/
def getattrMethod (m : PyModule) (name : String) : Option Handler :=
  (m.methods.find? (fun e => e.1 == name)).map (fun e => e.2)

/-- Method `VelbusModule.lookup_method`: the attribute named by the path segment, an underscore and the upper-cased verb. -/
def lookup_method (m : PyModule) (path_info : String) (method : String) : Option Handler :=
  getattrMethod m (path_info ++ "_" ++ method.toUpper)

/-- Split `path_info[1:].split('/', 1)` with an empty string appended when there is no
second component: the segment before the first `/` and the rest after it. -/
def splitFirstAux : List Char → List Char × List Char
  | [] => ([], [])
  | ch :: rest =>
      if ch = '/' then ([], rest)
      else
        let r := splitFirstAux rest
        (ch :: r.1, r.2)

/-- String version of `splitFirstAux`. -/
def splitOnce (s : String) : String × String :=
  let r := splitFirstAux s.toList
  (String.mk r.1, String.mk r.2)

/-- Method `VelbusModule.dispatch`: empty path becomes `/`; the first path
segment and the upper-cased verb select the handler; a failed `getattr`
(`AttributeError`) is caught and mapped to a 404 text response. -/
def dispatch (m : PyModule) (path_info : String) (method : String) : HttpResponse :=
  let path_info := if path_info = "" then "/" else path_info
  let module_path := splitOnce (path_info.drop 1)
  match lookup_method m module_path.1 method with
  | some f => f module_path.2
  | none => ⟨404, "Method not found\r\n"⟩

/-- Conclusion of the `when = None` claim, packaged: the entry is queued
with fire time `now` (UTC), and a fire at any `t ≥ now` invokes it. -/
def immediateOk (now t : Int) (pre post : List DelayedCall) (ctx : Nat)
    (s : ModuleScheduler) : Prop :=
  (⟨some ⟨now, true⟩, ctx⟩ : DelayedCall) ∈
      (setDelayedCalls now (pre ++ ⟨none, ctx⟩ :: post) s).processQueue ∧
    (⟨some ⟨now, true⟩, ctx⟩ : DelayedCall) ∈
      (onTimerFire t (setDelayedCalls now (pre ++ ⟨none, ctx⟩ :: post) s)).1

instance (s : ModuleScheduler) : Decidable (timersInv s) := by
  unfold timersInv
  infer_instance

/-! Bit-packed field codec and schema registry.

`_types.py`, `VelbusMessage.py` and `_registry.py` are not among the given
source files; the codec and registry below are modelled from the spec
(sections 3, 4.1, 4.2, 7).  The concrete schemas further down are
transcribed from `ModuleStatus.py`, `SensorSettings.py` and
`SensorSettingsRequest.py`, which are given.
-/

/-- Big-endian (MSB-first) fixed-width encoding of an unsigned value. -/
def natToBits : Nat → Nat → List Bool
  | 0, _ => []
  | n + 1, v => natToBits n (v / 2) ++ [decide (v % 2 = 1)]

/-- MSB-first bit stream to unsigned value. -/
def bitsToNat (bs : List Bool) : Nat :=
  bs.foldl (fun acc b => 2 * acc + b.toNat) 0

/-- Modelled from the spec: the shared bit cursor of `_types.py` —
consume `n` bits from the stream, failing with a buffer underrun when
fewer remain. -/
def readBits (n : Nat) (bs : List Bool) : Option (Nat × List Bool) :=
  if n ≤ bs.length then some (bitsToNat (bs.take n), bs.drop n) else none

/-- Two's-complement image of a signed raw value in `n` bits. -/
def toTwos (n : Nat) (raw : Int) : Nat :=
  (raw % ((2 : Int) ^ n)).toNat

/-- Signed reading of an `n`-bit unsigned value. -/
def fromTwos (n : Nat) (u : Nat) : Int :=
  if u < 2 ^ (n - 1) then (u : Int) else (u : Int) - 2 ^ n

/-- Round half away from zero, the documented `Temperature` encode
rounding. -/
def roundHalfAway (q : ℚ) : ℤ :=
  if 0 ≤ q then ⌊q + 1 / 2⌋ else -⌊-q + 1 / 2⌋

/-- Modelled from the spec: the primitive field-type descriptors of
`_types.py` (`UInt`, `Enum`, `Bitmap`, `Bool`, `Temperature`).  An enum
field's raw-to-variant mapping is injective and unmapped raw values are
preserved, so an enum value is represented by its raw wire value; the
temperature width is 8 bits in the given schemas (one payload byte per
temperature field), kept general here. -/
inductive FieldType where
  | uint (n : Nat)
  | enum (n : Nat)
  | bitmap (n : Nat)
  | bool
  | temp (n : Nat) (scale : ℚ)
deriving DecidableEq, Repr

/-- A concrete field value; `bitmap` lists flag `i` at index `i`,
`enum` holds the raw wire value, `temp` the scaled reading. -/
inductive FieldValue where
  | uint (v : Nat)
  | enum (v : Nat)
  | bitmap (flags : List Bool)
  | bool (b : Bool)
  | temp (v : ℚ)
deriving DecidableEq, Repr

/-- Declared bit width of a field. -/
def ftWidth : FieldType → Nat
  | .uint n => n
  | .enum n => n
  | .bitmap n => n
  | .bool => 1
  | .temp n _ => n

/-- Modelled from the spec: per-field encode of `_types.py`.  Encode
fails on out-of-range values; flag 0 of a bitmap is the least significant
bit of its field (so the flag list is reversed into the MSB-first
stream); temperature encodes `round(value / scale)` half away from zero,
range-checked against the representable signed range. -/
def encodeField : FieldType → FieldValue → Option (List Bool)
  | .uint n, .uint v => if v < 2 ^ n then some (natToBits n v) else none
  | .enum n, .enum v => if v < 2 ^ n then some (natToBits n v) else none
  | .bitmap n, .bitmap fs => if fs.length = n then some fs.reverse else none
  | .bool, .bool b => some [b]
  | .temp n s, .temp v =>
      let raw := roundHalfAway (v / s)
      if -((2 : Int) ^ (n - 1)) ≤ raw ∧ raw < (2 : Int) ^ (n - 1) then
        some (natToBits n (toTwos n raw))
      else none
  | _, _ => none

/-- Modelled from the spec: per-field decode of `_types.py`, consuming
exactly the declared width; temperature decodes `raw_signed * scale`. -/
def decodeField : FieldType → List Bool → Option (FieldValue × List Bool)
  | .uint n, bs => (readBits n bs).map (fun r => (.uint r.1, r.2))
  | .enum n, bs => (readBits n bs).map (fun r => (.enum r.1, r.2))
  | .bitmap n, bs =>
      if n ≤ bs.length then some (.bitmap (bs.take n).reverse, bs.drop n) else none
  | .bool, bs =>
      match bs with
      | b :: rest => some (.bool b, rest)
      | [] => none
  | .temp n s, bs => (readBits n bs).map (fun r => (.temp (fromTwos n r.1 * s), r.2))

/-- Field-by-field encoding of a whole message body in declaration
order. -/
def encodeFields : List FieldType → List FieldValue → Option (List Bool)
  | [], [] => some []
  | ft :: fts, fv :: fvs => do
      let b ← encodeField ft fv
      let r ← encodeFields fts fvs
      pure (b ++ r)
  | _, _ => none

/-- Field-by-field decoding of a message body in declaration order. -/
def decodeFields : List FieldType → List Bool → Option (List FieldValue × List Bool)
  | [], bs => some ([], bs)
  | ft :: fts, bs => do
      let r ← decodeField ft bs
      let r2 ← decodeFields fts r.2
      pure (r.1 :: r2.1, r2.2)

/-- A message schema: fixed 2-bit priority, fixed 8-bit command
discriminator, ordered data-field list (declaration order is wire
order). -/
structure Schema where
  priority : Nat
  command : Nat
  fields : List FieldType
deriving DecidableEq, Repr

/-- Payload bits of a message: the command byte followed by the encoded
data fields (the 2-bit priority travels in the frame header). -/
def encodeMessage (s : Schema) (vals : List FieldValue) : Option (List Bool) :=
  (encodeFields s.fields vals).map (fun b => natToBits 8 s.command ++ b)

/-- Decode a payload against a resolved schema: read and check the
command byte, decode the fields, and require the payload to be fully
consumed. -/
def decodeMessage (s : Schema) (bits : List Bool) : Option (List FieldValue) := do
  let r ← readBits 8 bits
  if r.1 = s.command then
    let r2 ← decodeFields s.fields r.2
    if r2.2 = [] then some r2.1 else none
  else none

/-- Decoded value vs original: exact for every kind except temperature,
which is recovered up to the documented `scale / 2` rounding loss. -/
def closeField (ft : FieldType) (fv fv2 : FieldValue) : Prop :=
  match ft with
  | .temp _ s => ∃ v v2, fv = .temp v ∧ fv2 = .temp v2 ∧ |v2 - v| ≤ s / 2
  | _ => fv2 = fv

/-- Pointwise `closeField` across a whole field list. -/
def CloseAll : List FieldType → List FieldValue → List FieldValue → Prop
  | [], [], [] => True
  | ft :: fts, fv :: fvs, fv2 :: fvs2 => closeField ft fv fv2 ∧ CloseAll fts fvs fvs2
  | _, _, _ => False

/-- Structural sanity of a field descriptor as it occurs in the given
schemas: a temperature field has a positive width and a positive scale. -/
def wfField : FieldType → Prop
  | .temp n s => 0 < n ∧ 0 < s
  | _ => True

instance (ft : FieldType) : Decidable (wfField ft) := by
  unfold wfField
  cases ft <;> infer_instance

/-- Total declared width of a schema's data fields. -/
def totalWidth (fts : List FieldType) : Nat :=
  (fts.map ftWidth).sum

/-- The registry key of a schema: its command byte and its payload byte
length — the command byte plus the data bytes (observed lengths 7/5/8
for the three `0xED` layouts). -/
def schemaKey (s : Schema) : Nat × Nat :=
  (s.command, 1 + totalWidth s.fields / 8)

/-- Modelled from the spec: the two startup registration failures of
`_registry.py` (section 7). -/
inductive RegError where
  | duplicateKey
  | nonByteAligned
deriving DecidableEq, Repr

/-- The registry: a decision table from (command, payload length) to the
unique schema. -/
abbrev Registry := List ((Nat × Nat) × Schema)

/-- Is a (command, payload length) key already taken? -/
def hasKey (r : Registry) (k : Nat × Nat) : Bool :=
  r.any (fun e => e.1 == k)

/-- Modelled from the spec: `register` of `_registry.py` — fails eagerly
when the schema's field widths do not sum to a whole number of bytes, or
when another schema already owns the (command, payload length) key. -/
def register (r : Registry) (s : Schema) : Except RegError Registry :=
  if totalWidth s.fields % 8 ≠ 0 then .error .nonByteAligned
  else if hasKey r (schemaKey s) then .error .duplicateKey
  else .ok (r ++ [(schemaKey s, s)])

/-- Register a list of schemas in order, starting from an empty
registry (startup). -/
def registerAll (schemas : List Schema) : Except RegError Registry :=
  schemas.foldlM (fun r s => register r s) []

/-- Modelled from the spec: resolution of an incoming
(command, payload length) pair to the unique registered schema;
`none` is the unrecognized-frame failure. -/
def resolve (r : Registry) (command length : Nat) : Option Schema :=
  (r.find? (fun e => e.1 == (command, length))).map (fun e => e.2)

/-- Schema `ModuleStatus8PBU` (`ModuleStatus.py` lines 13-45): five 8-bit
bitmaps, then byte 7 with sunset/sunrise flags, two alarm enum+flag
pairs and the 2-bit program enum. -/
def moduleStatus8PBU : Schema :=
  { priority := 3
    command := 0xed
    fields := [.bitmap 8, .bitmap 8, .bitmap 8, .bitmap 8, .bitmap 8,
      .bool, .bool, .enum 1, .bool, .enum 1, .bool, .enum 2] }

/-- Schema `ModuleStatus6IN` (`ModuleStatus.py` lines 48-60): four 8-bit
bitmaps. -/
def moduleStatus6IN : Schema :=
  { priority := 3
    command := 0xed
    fields := [.bitmap 8, .bitmap 8, .bitmap 8, .bitmap 8] }

/-- Schema `ModuleStatusVMBELO` (`ModuleStatus.py` lines 63-152): two bitmaps,
eight DATABYTE4 flags, two more bitmaps, byte 7 as in the 8PBU layout,
and byte 8 with display/screensaver enums, the menu-page flag and the
5-bit page enum. -/
def moduleStatusVMBELO : Schema :=
  { priority := 3
    command := 0xed
    fields := [.bitmap 8, .bitmap 8,
      .bool, .bool, .bool, .bool, .bool, .bool, .bool, .bool,
      .bitmap 8, .bitmap 8,
      .bool, .bool, .enum 1, .bool, .enum 1, .bool, .enum 2,
      .enum 1, .enum 1, .bool, .enum 5] }

/-- Schema `SensorSettings1` (`SensorSettings.py` lines 8-26): seven
half-degree temperature bytes, command `0xE8`. -/
def sensorSettings1 : Schema :=
  { priority := 3
    command := 0xe8
    fields := [.temp 8 (1 / 2), .temp 8 (1 / 2), .temp 8 (1 / 2), .temp 8 (1 / 2),
      .temp 8 (1 / 2), .temp 8 (1 / 2), .temp 8 (1 / 2)] }

/-- Schema `SensorSettings2` (`SensorSettings.py` lines 28-47): four
temperatures, a 16-bit sleep timer, an 8-bit interval, command `0xE9`. -/
def sensorSettings2 : Schema :=
  { priority := 3
    command := 0xe9
    fields := [.temp 8 (1 / 2), .temp 8 (1 / 2), .temp 8 (1 / 2), .temp 8 (1 / 2),
      .uint 16, .uint 8] }

/-- Schema `SensorSettings3` (`SensorSettings.py` lines 50-65): five
temperatures, zone number and gain factor bytes, command `0xC6`. -/
def sensorSettings3 : Schema :=
  { priority := 3
    command := 0xc6
    fields := [.temp 8 (1 / 2), .temp 8 (1 / 2), .temp 8 (1 / 2), .temp 8 (1 / 2),
      .temp 8 (1 / 2), .uint 8, .uint 8] }

/-- Schema `SensorSettings4` (`SensorSettings.py` lines 68-83): three timing
bytes then four temperatures, command `0xB9`. -/
def sensorSettings4 : Schema :=
  { priority := 3
    command := 0xb9
    fields := [.uint 8, .uint 8, .uint 8,
      .temp 8 (1 / 2), .temp 8 (1 / 2), .temp 8 (1 / 2), .temp 8 (1 / 2)] }

/-- Schema `SensorSettingsRequest` (`SensorSettingsRequest.py`): command
`0xE7`, no data fields. -/
def sensorSettingsRequest : Schema :=
  { priority := 3
    command := 0xe7
    fields := [] }

/-- All schemas declared by the given source files, in declaration
order. -/
def allSchemas : List Schema :=
  [moduleStatus8PBU, moduleStatus6IN, moduleStatusVMBELO,
    sensorSettings1, sensorSettings2, sensorSettings3, sensorSettings4,
    sensorSettingsRequest]

/-- The registry built at startup from the given schemas. -/
def velbusRegistryE : Except RegError Registry :=
  registerAll allSchemas

/-- The startup registry, with a successful registration extracted. -/
def velbusRegistry : Registry :=
  (velbusRegistryE.toOption).getD []

/-! JSON-patch state synchronization.

`JsonPatchDict.py` is not among the given source files (only the
`VelbusModule.state` setter, `self._state.replace(value)`, is); the state
tree, the patch operations and the mutations that emit them are modelled
from the spec (sections 3, 4.4, 6): a nested mapping with string/int
keys, mutations expressed as add/replace/remove patches at a path, and a
wholesale replacement expressed as a clear-then-rebuild patch sequence.
-/

/-- Modelled from the spec: a state-tree key — string or int. -/
inductive JKey where
  | str (s : String)
  | num (n : Int)
deriving DecidableEq, Repr

/-- Modelled from the spec: a JSON-compatible state tree — scalars
(collapsed to integers; their identity is irrelevant to the patch
mechanics) and nested key-ordered mappings. -/
inductive JVal where
  | scalar : Int → JVal
  | obj : List (JKey × JVal) → JVal

/-- The entry list of a node (a scalar has none). -/
def toEntries : JVal → List (JKey × JVal)
  | .scalar _ => []
  | .obj es => es

/-- Top-level keys of an entry list. -/
def keysOf (es : List (JKey × JVal)) : List JKey :=
  es.map Prod.fst

/-- Look up the first entry with the given key. -/
def lookupEntry : List (JKey × JVal) → JKey → Option JVal
  | [], _ => none
  | (k2, v) :: rest, k => if k2 = k then some v else lookupEntry rest k

/-- Rewrite the first entry with key `k` through `f` (receiving the old
child), appending a fresh entry when the key is absent. -/
def updEntries : List (JKey × JVal) → JKey → (Option JVal → JVal) → List (JKey × JVal)
  | [], k, f => [(k, f none)]
  | (k2, v) :: rest, k, f =>
      if k2 = k then (k2, f (some v)) :: rest
      else (k2, v) :: updEntries rest k f

/-- Drop the first entry with the given key. -/
def removeEntry : List (JKey × JVal) → JKey → List (JKey × JVal)
  | [], _ => []
  | (k2, v) :: rest, k => if k2 = k then rest else (k2, v) :: removeEntry rest k

/-- Rewrite the child at an existing key through `f`; absent keys leave
the list untouched. -/
def modifyEntry : List (JKey × JVal) → JKey → (JVal → JVal) → List (JKey × JVal)
  | [], _, _ => []
  | (k2, v) :: rest, k, f =>
      if k2 = k then (k2, f v) :: rest
      else (k2, v) :: modifyEntry rest k f

/-- Write `v` at `path`, creating intermediate nodes (and overwriting
scalars by nodes) along the way. -/
def setPath : List JKey → JVal → JVal → JVal
  | [], v, _ => v
  | k :: p, v, s =>
      .obj (updEntries (toEntries s) k (fun old => setPath p v (old.getD (.obj []))))

/-- Remove the subtree at `path`; the empty path clears the whole
tree. -/
def delPath : List JKey → JVal → JVal
  | [], _ => .obj []
  | [k], s => .obj (removeEntry (toEntries s) k)
  | k :: p, s => .obj (modifyEntry (toEntries s) k (delPath p))

/-- Does `path` resolve to an existing value? -/
def pathExistsB : List JKey → JVal → Bool
  | [], _ => true
  | k :: p, s =>
      match lookupEntry (toEntries s) k with
      | some v => pathExistsB p v
      | none => false

/-- Modelled from the spec: the three patch operations. -/
inductive POp where
  | add
  | replace
  | remove
deriving DecidableEq, Repr

/-- Modelled from the spec: one emitted patch — a path, an operation and
(for add/replace) the new value. -/
structure Patch where
  path : List JKey
  op : POp
  value : Option JVal

/-- Apply one patch: add and replace both write their value at the path,
remove deletes the path (a value-less add/replace is a no-op). -/
def applyPatch (s : JVal) (p : Patch) : JVal :=
  match p.op, p.value with
  | .remove, _ => delPath p.path s
  | _, some v => setPath p.path v s
  | _, none => s

/-- Replay a patch sequence in emission order. -/
def applyPatches (s : JVal) (ps : List Patch) : JVal :=
  ps.foldl applyPatch s

/-- Modelled from the spec: the mutations a runtime performs on its
state tree — writing a value at a path, removing a path, and the
wholesale replacement used by the `VelbusModule.state` setter
(`self._state.replace(value)`). -/
inductive Mutation where
  | set (path : List JKey) (v : JVal)
  | del (path : List JKey)
  | replaceAll (entries : List (JKey × JVal))

/-- The state after a mutation. -/
def applyMut (s : JVal) : Mutation → JVal
  | .set path v => setPath path v s
  | .del path => delPath path s
  | .replaceAll es => .obj es

/-- One top-level add patch per entry of a rebuilt tree. -/
def addPatches : List (JKey × JVal) → List Patch
  | [] => []
  | (k, v) :: rest => ⟨[k], .add, some v⟩ :: addPatches rest

/-- The patches a mutation emits: a single add-or-replace (depending on
whether the path already exists) or remove; a wholesale replacement is
expressed as clear-then-rebuild — remove the root, then add each new
top-level entry. -/
def emit (s : JVal) : Mutation → List Patch
  | .set path v => [⟨path, if pathExistsB path s then .replace else .add, some v⟩]
  | .del path => [⟨path, .remove, none⟩]
  | .replaceAll es => ⟨[], .remove, none⟩ :: addPatches es

/-- Run a mutation sequence from a state, producing the final state and
the full emitted patch history in emission order. -/
def runMuts : JVal → List Mutation → JVal × List Patch
  | s, [] => (s, [])
  | s, m :: ms =>
      let r := runMuts (applyMut s m) ms
      (r.1, emit s m ++ r.2)

/-- The empty state tree. -/
def emptyState : JVal := .obj []

/-- Well-formedness of a mutation: a replacement tree has no duplicate
top-level keys (as a Python dict cannot). -/
def MutWf : Mutation → Prop
  | .replaceAll es => (keysOf es).Nodup
  | _ => True

instance (m : Mutation) : Decidable (MutWf m) := by
  cases m <;> simp only [MutWf] <;> infer_instance

-- THEOREMS-MARKER (definitions above, theorems below)

theorem scheduleNext_processQueue (now : Int) (s : ModuleScheduler) :
    (scheduleNext now s).processQueue = s.processQueue := by
  unfold scheduleNext cancelNext
  cases hn : s.nextDelayedCall <;> simp <;>
    cases hq : s.processQueue <;> simp [hq]

theorem fireLoop_eq_takeWhile_dropWhile (now : Int) (q : List DelayedCall) :
    fireLoop now q = (q.takeWhile (dueB now), q.dropWhile (dueB now)) := by
  induction q with
  | nil => simp [fireLoop, List.takeWhile, List.dropWhile]
  | cons c rest ih =>
      by_cases h : callKey c ≤ now
      · simp [fireLoop, h, List.takeWhile_cons, List.dropWhile_cons, dueB, ih]
      · simp [fireLoop, h, List.takeWhile_cons, List.dropWhile_cons, dueB]

theorem sortedAdd_perm (c : DelayedCall) (q : List DelayedCall) :
    (sortedAdd c q).Perm (c :: q) := by
  induction q with
  | nil => simp [sortedAdd]
  | cons x xs ih =>
      by_cases h : callKey x ≤ callKey c
      · simp only [sortedAdd, if_pos h]
        exact (ih.cons x).trans (List.Perm.swap c x xs)
      · simp [sortedAdd, if_neg h]

theorem sortedAdd_sorted (c : DelayedCall) (q : List DelayedCall)
    (h : queueSorted q) : queueSorted (sortedAdd c q) := by
  induction q with
  | nil => simp [sortedAdd, queueSorted]
  | cons x xs ih =>
      rw [queueSorted, List.pairwise_cons] at h
      by_cases hx : callKey x ≤ callKey c
      · simp only [sortedAdd, if_pos hx]
        rw [queueSorted, List.pairwise_cons]
        refine ⟨?_, ih h.2⟩
        intro y hy
        rcases List.mem_cons.mp ((sortedAdd_perm c xs).mem_iff.mp hy) with hy | hy
        · subst hy; exact hx
        · exact h.1 y hy
      · simp only [sortedAdd, if_neg hx]
        have hcx : callKey c ≤ callKey x := le_of_lt (lt_of_not_le hx)
        rw [queueSorted, List.pairwise_cons]
        refine ⟨?_, List.pairwise_cons.mpr h⟩
        intro y hy
        rcases List.mem_cons.mp hy with hy | hy
        · subst hy; exact hcx
        · exact le_trans hcx (h.1 y hy)

theorem foldl_sortedAdd_sorted (l : List DelayedCall) (q : List DelayedCall)
    (h : queueSorted q) :
    queueSorted (l.foldl (fun q c => sortedAdd c q) q) := by
  induction l generalizing q with
  | nil => exact h
  | cons c cs ih => exact ih _ (sortedAdd_sorted c q h)

theorem buildQueue_sorted (now : Int) (value : List DelayedCall) :
    queueSorted (buildQueue now value) := by
  exact foldl_sortedAdd_sorted _ _ (by simp [queueSorted])

theorem foldl_sortedAdd_perm (l : List DelayedCall) (q : List DelayedCall) :
    (l.foldl (fun q c => sortedAdd c q) q).Perm (l ++ q) := by
  induction l generalizing q with
  | nil => simp
  | cons c cs ih =>
      simp only [List.foldl_cons, List.cons_append]
      exact ((ih (sortedAdd c q)).trans
        (List.Perm.append_left cs (sortedAdd_perm c q))).trans
        List.perm_middle

theorem buildQueue_perm (now : Int) (value : List DelayedCall) :
    (buildQueue now value).Perm (value.map (normalizeCall now)) := by
  have h := foldl_sortedAdd_perm (value.map (normalizeCall now)) []
  simpa [buildQueue] using h

theorem takeWhile_eq_filter_of_sorted (t : Int) (q : List DelayedCall)
    (h : queueSorted q) :
    q.takeWhile (dueB t) = q.filter (dueB t) ∧
      q.dropWhile (dueB t) = q.filter (fun c => decide (t < callKey c)) := by
  induction q with
  | nil => simp
  | cons c rest ih =>
      rw [queueSorted, List.pairwise_cons] at h
      obtain ⟨hhead, htail⟩ := h
      obtain ⟨iht, ihd⟩ := ih htail
      by_cases hc : callKey c ≤ t
      · constructor
        · simp [List.takeWhile_cons, List.filter_cons, dueB, hc, iht]
        · simp [List.dropWhile_cons, List.filter_cons, dueB, hc, not_lt.mpr hc, ihd]
      · have hfut : t < callKey c := lt_of_not_le hc
        have hall : ∀ x ∈ rest, ¬ (callKey x ≤ t) := by
          intro x hx
          exact not_le.mpr (lt_of_lt_of_le hfut (hhead x hx))
        have hfil : rest.filter (dueB t) = [] := by
          refine List.filter_eq_nil_iff.mpr ?_
          intro x hx
          simp [dueB, hall x hx]
        have hfil2 : rest.filter (fun c => decide (t < callKey c)) = rest := by
          refine List.filter_eq_self.mpr ?_
          intro x hx
          simpa using lt_of_lt_of_le hfut (hhead x hx)
        constructor
        · simp [List.takeWhile_cons, List.filter_cons, dueB, hc, hfil]
        · simp [List.dropWhile_cons, List.filter_cons, dueB, hc, hfut, hfil2]

theorem filter_key_sortedAdd (c : DelayedCall) (q : List DelayedCall) (k : Int)
    (h : queueSorted q) :
    (sortedAdd c q).filter (fun x => decide (callKey x = k)) =
      (if callKey c = k then q.filter (fun x => decide (callKey x = k)) ++ [c]
       else q.filter (fun x => decide (callKey x = k))) := by
  induction q with
  | nil =>
      by_cases hck : callKey c = k <;> simp [sortedAdd, List.filter_cons, hck]
  | cons x xs ih =>
      rw [queueSorted, List.pairwise_cons] at h
      obtain ⟨hhead, htail⟩ := h
      by_cases hx : callKey x ≤ callKey c
      · simp only [sortedAdd, if_pos hx]
        rw [List.filter_cons, List.filter_cons, ih htail]
        by_cases hck : callKey c = k <;>
          by_cases hxk : callKey x = k <;>
            simp [hck, hxk]
      · simp only [sortedAdd, if_neg hx]
        have hlt : callKey c < callKey x := lt_of_not_le hx
        by_cases hck : callKey c = k
        · have hfil : (x :: xs).filter (fun y => decide (callKey y = k)) = [] := by
            refine List.filter_eq_nil_iff.mpr ?_
            intro y hy
            have : callKey c < callKey y := by
              rcases List.mem_cons.mp hy with hy | hy
              · subst hy; exact hlt
              · exact lt_of_lt_of_le hlt (hhead y hy)
            simp [← hck, ne_of_gt this]
          rw [List.filter_cons, hfil]
          simp [hck]
        · simp [List.filter_cons, hck]

theorem foldl_sortedAdd_filter_key (l : List DelayedCall) (q : List DelayedCall) (k : Int)
    (h : queueSorted q) :
    (l.foldl (fun q c => sortedAdd c q) q).filter (fun x => decide (callKey x = k)) =
      q.filter (fun x => decide (callKey x = k)) ++
        l.filter (fun x => decide (callKey x = k)) := by
  induction l generalizing q with
  | nil => simp
  | cons c cs ih =>
      simp only [List.foldl_cons]
      rw [ih (sortedAdd c q) (sortedAdd_sorted c q h),
          filter_key_sortedAdd c q k h, List.filter_cons]
      by_cases hck : callKey c = k <;> simp [hck]

theorem buildQueue_stable (now : Int) (value : List DelayedCall) (k : Int) :
    (buildQueue now value).filter (fun x => decide (callKey x = k)) =
      (value.map (normalizeCall now)).filter (fun x => decide (callKey x = k)) := by
  have h := foldl_sortedAdd_filter_key (value.map (normalizeCall now)) [] k
    (by simp [queueSorted])
  simpa [buildQueue] using h

/-- C3: when the timer fires, the scheduler pops and invokes exactly the
queued entries whose fire time is ≤ now (and only those), the entries with
a future fire time remain queued, the queue is in fire-time order, and
equal fire times keep the insertion order of the plan that populated the
queue. -/
theorem delayed_call_fires_due_entries_in_order
    (plan : List DelayedCall) (now t : Int) :
    (onTimerFire t (setDelayedCalls now plan emptySched)).1 =
      (setDelayedCalls now plan emptySched).processQueue.filter (dueB t) ∧
    ((onTimerFire t (setDelayedCalls now plan emptySched)).2).processQueue =
      (setDelayedCalls now plan emptySched).processQueue.filter
        (fun c => decide (t < callKey c)) ∧
    queueSorted (setDelayedCalls now plan emptySched).processQueue ∧
    (∀ k : Int,
      (setDelayedCalls now plan emptySched).processQueue.filter
          (fun x => decide (callKey x = k)) =
        (plan.map (normalizeCall now)).filter (fun x => decide (callKey x = k))) := by
  have hq : (setDelayedCalls now plan emptySched).processQueue = buildQueue now plan := by
    simp [setDelayedCalls, scheduleNext_processQueue]
  have hsorted : queueSorted (setDelayedCalls now plan emptySched).processQueue := by
    rw [hq]; exact buildQueue_sorted now plan
  obtain ⟨htake, hdrop⟩ :=
    takeWhile_eq_filter_of_sorted t _ hsorted
  refine ⟨?_, ?_, hsorted, ?_⟩
  · simp only [onTimerFire, fireLoop_eq_takeWhile_dropWhile]
    exact htake
  · simp only [onTimerFire, fireLoop_eq_takeWhile_dropWhile,
      scheduleNext_processQueue]
    exact hdrop
  · intro k
    rw [hq]
    exact buildQueue_stable now plan k

theorem cancelNext_char (s : ModuleScheduler) (h : timersInv s) :
    (cancelNext s).processQueue = s.processQueue ∧
      (cancelNext s).nextDelayedCall = none ∧
      (cancelNext s).loopTimers = [] ∧
      (cancelNext s).nextTimerId = s.nextTimerId := by
  obtain ⟨hlive, _⟩ := h
  cases hn : s.nextDelayedCall with
  | none =>
      rw [hn] at hlive
      simp at hlive
      simp [cancelNext, hn, hlive]
  | some h0 =>
      rw [hn] at hlive
      simp at hlive
      simp [cancelNext, hn, hlive]

/-- C4: a re-arm first cancels the previous handle, then arms at most one
new timer: afterwards the runtime again owns exactly the handle it
references, the old handle is gone, and either the queue is empty with no
timer armed, or one timer is armed with the delay of the earliest entry. -/
theorem rearm_single_timer (now : Int) (s : ModuleScheduler) (h : timersInv s) :
    rearmOk now s := by
  obtain ⟨hq, hnone, hlive0, hnid⟩ := cancelNext_char s h
  obtain ⟨_, hid⟩ := h
  unfold rearmOk
  cases hpq : s.processQueue with
  | nil =>
      have hs : scheduleNext now s = cancelNext s := by
        simp only [scheduleNext, hq, hpq]
      rw [hs]
      refine ⟨⟨by simp [hnone, hlive0], by simp [hnone]⟩,
        by simp [hlive0], by simp [hlive0], fun _ => ⟨hnone, hlive0⟩, ?_⟩
      intro c rest hcontra
      simp at hcontra
  | cons c rest =>
      have hs : scheduleNext now s =
          { cancelNext s with
            nextDelayedCall :=
              some ⟨s.nextTimerId, datetime_to_relative_seconds (callWhen c) ⟨now, true⟩⟩
            loopTimers := (cancelNext s).loopTimers ++
              [⟨s.nextTimerId, datetime_to_relative_seconds (callWhen c) ⟨now, true⟩⟩]
            nextTimerId := s.nextTimerId + 1 } := by
        simp only [scheduleNext, hq, hpq, hnid]
      rw [hs]
      refine ⟨⟨by simp [hlive0], by simp [hlive0]⟩, by simp [hlive0], ?_, ?_, ?_⟩
      · intro hOld hsome
        have hlt : hOld.id < s.nextTimerId := by
          apply hid
          simp [hsome]
        simp only [hlive0, List.nil_append, List.mem_singleton]
        intro hcontra
        rw [hcontra] at hlt
        exact absurd hlt (by simp)
      · intro hcontra
        simp at hcontra
      · intro c' rest' hc'
        injection hc' with h1 h2
        subst h1
        exact ⟨⟨s.nextTimerId, datetime_to_relative_seconds (callWhen c) ⟨now, true⟩⟩,
          by simp, by simp [hlive0], rfl⟩

/-- Concrete runtime state for the re-arm witness: one queued entry, one
armed (stale) timer handle. -/
theorem rearm_single_timer_witness :
    timersInv ⟨[⟨some ⟨5, true⟩, 0⟩], some ⟨0, 2⟩, [⟨0, 2⟩], 1⟩ ∧
      rearmOk 3 ⟨[⟨some ⟨5, true⟩, 0⟩], some ⟨0, 2⟩, [⟨0, 2⟩], 1⟩ :=
  ⟨by decide, rearm_single_timer 3 _ (by decide)⟩

/-- C5: replacing the plan discards the old queue entirely — the new queue
depends only on the new plan — and any entry invoked by a subsequent fire
comes from the new plan. -/
theorem replace_supersedes (s : ModuleScheduler) (plan : List DelayedCall) (now t : Int) :
    (setDelayedCalls now plan s).processQueue =
      (setDelayedCalls now plan emptySched).processQueue ∧
    (onTimerFire t (setDelayedCalls now plan s)).1 ⊆
      plan.map (normalizeCall now) := by
  have hq : ∀ s' : ModuleScheduler,
      (setDelayedCalls now plan s').processQueue = buildQueue now plan := by
    intro s'
    simp [setDelayedCalls, scheduleNext_processQueue]
  refine ⟨by rw [hq, hq], ?_⟩
  intro c hc
  have hmem : c ∈ (buildQueue now plan).takeWhile (dueB t) := by
    simpa [onTimerFire, fireLoop_eq_takeWhile_dropWhile, hq] using hc
  have hmemq : c ∈ buildQueue now plan :=
    (List.takeWhile_sublist (dueB t)).subset hmem
  exact (buildQueue_perm now plan).mem_iff.mp hmemq

/-- Concrete instantiation of the plan-replacement claim: an old queue
with one entry superseded by a one-entry plan, fired afterwards. -/
theorem replace_supersedes_witness :
    (setDelayedCalls 0 [⟨some ⟨2, true⟩, 7⟩]
        ⟨[⟨some ⟨1, true⟩, 9⟩], none, [], 0⟩).processQueue =
      (setDelayedCalls 0 [⟨some ⟨2, true⟩, 7⟩] emptySched).processQueue ∧
    (onTimerFire 3 (setDelayedCalls 0 [⟨some ⟨2, true⟩, 7⟩]
        ⟨[⟨some ⟨1, true⟩, 9⟩], none, [], 0⟩)).1 ⊆
      [⟨some ⟨2, true⟩, 7⟩].map (normalizeCall 0) :=
  replace_supersedes ⟨[⟨some ⟨1, true⟩, 9⟩], none, [], 0⟩ [⟨some ⟨2, true⟩, 7⟩] 0 3

/-- C6: scheduling a naive fire time is indistinguishable from scheduling
the same instant explicitly marked UTC — the resulting runtime state
(queue contents, order and armed timer) coincides, and the computed
relative delay coincides. -/
theorem naive_equals_utc (now : Int) (pre post : List DelayedCall)
    (t0 : Int) (ctx : Nat) (s : ModuleScheduler) :
    setDelayedCalls now (pre ++ ⟨some ⟨t0, false⟩, ctx⟩ :: post) s =
      setDelayedCalls now (pre ++ ⟨some ⟨t0, true⟩, ctx⟩ :: post) s ∧
    datetime_to_relative_seconds ⟨t0, false⟩ ⟨now, true⟩ =
      datetime_to_relative_seconds ⟨t0, true⟩ ⟨now, true⟩ := by
  constructor
  · have hmap : (pre ++ (⟨some ⟨t0, false⟩, ctx⟩ : DelayedCall) :: post).map (normalizeCall now) =
        (pre ++ (⟨some ⟨t0, true⟩, ctx⟩ : DelayedCall) :: post).map (normalizeCall now) := by
      simp [normalizeCall]
    unfold setDelayedCalls buildQueue
    rw [hmap]
  · simp [datetime_to_relative_seconds]

/-- C9: an entry handed to the setter with `when = None` is stamped with
the current UTC time, so it sits in the queue as due-now and is among the
invoked entries of the next fire (at any `t ≥ now`). -/
theorem none_when_is_immediate (now t : Int) (pre post : List DelayedCall)
    (ctx : Nat) (s : ModuleScheduler) (h : now ≤ t) :
    immediateOk now t pre post ctx s := by
  have hq : (setDelayedCalls now (pre ++ ⟨none, ctx⟩ :: post) s).processQueue =
      buildQueue now (pre ++ ⟨none, ctx⟩ :: post) := by
    simp [setDelayedCalls, scheduleNext_processQueue]
  have hmemmap : (⟨some ⟨now, true⟩, ctx⟩ : DelayedCall) ∈
      (pre ++ (⟨none, ctx⟩ : DelayedCall) :: post).map (normalizeCall now) := by
    have : normalizeCall now ⟨none, ctx⟩ = ⟨some ⟨now, true⟩, ctx⟩ := by
      simp [normalizeCall]
    rw [← this]
    exact List.mem_map_of_mem _ (by simp)
  have hmemq : (⟨some ⟨now, true⟩, ctx⟩ : DelayedCall) ∈
      buildQueue now (pre ++ ⟨none, ctx⟩ :: post) :=
    (buildQueue_perm now _).mem_iff.mpr hmemmap
  have hsorted := buildQueue_sorted now (pre ++ (⟨none, ctx⟩ : DelayedCall) :: post)
  obtain ⟨htake, _⟩ := takeWhile_eq_filter_of_sorted t _ hsorted
  constructor
  · rw [hq]; exact hmemq
  · simp only [onTimerFire, fireLoop_eq_takeWhile_dropWhile, hq, htake]
    rw [List.mem_filter]
    exact ⟨hmemq, by simp [dueB, callKey, h]⟩

/-- Concrete instantiation for the `when = None` witness. -/
theorem none_when_is_immediate_witness :
    (0 : Int) ≤ 1 ∧ immediateOk 0 1 [] [] 5 emptySched :=
  ⟨by decide, none_when_is_immediate 0 1 [] [] 5 emptySched (by decide)⟩

/-- C10: when the module defines no attribute named
`<first path segment>_<VERB>`, dispatch catches the `AttributeError` and
answers 404 `Method not found`; an empty path is treated as `/`. -/
theorem dispatch_missing_method_404 (m : PyModule) (path_info method : String)
    (h : lookup_method m
      (splitOnce ((if path_info = "" then "/" else path_info).drop 1)).1 method = none) :
    dispatch m path_info method = ⟨404, "Method not found\r\n"⟩ ∧
      dispatch m "" method = dispatch m "/" method := by
  constructor
  · simp only [dispatch]
    rw [h]
  · rfl

/-- Concrete instantiation of the 404 dispatch claim: a module with no
handlers, a two-segment path and a lower-case verb. -/
theorem dispatch_missing_method_404_witness :
    lookup_method ⟨[]⟩
      (splitOnce ((if "status/x" = "" then "/" else "status/x").drop 1)).1 "get" = none ∧
    (dispatch ⟨[]⟩ "status/x" "get" = ⟨404, "Method not found\r\n"⟩ ∧
      dispatch ⟨[]⟩ "" "get" = dispatch ⟨[]⟩ "/" "get") :=
  ⟨rfl, dispatch_missing_method_404 ⟨[]⟩ "status/x" "get" rfl⟩

/-- C2: resolution keys on both the command and the payload length:
`0xED` resolves to three different schemas at lengths 7, 5 and 8, and
fails at length 6. -/
theorem registry_resolution_by_command_and_length :
    resolve velbusRegistry 0xed 7 = some moduleStatus8PBU ∧
    resolve velbusRegistry 0xed 5 = some moduleStatus6IN ∧
    resolve velbusRegistry 0xed 8 = some moduleStatusVMBELO ∧
    resolve velbusRegistry 0xed 6 = none := by
  refine ⟨?_, ?_, ?_, ?_⟩ <;> rfl

/-- C8: registration fails exactly on a duplicate (command, payload
length) key or a non-byte-aligned total field width — and the startup
registration of all given schemas succeeds, so neither error can be
deferred to frame-processing time. -/
theorem registration_fails_iff_duplicate_or_misaligned :
    (∀ (r : Registry) (s : Schema),
      (∃ e, register r s = Except.error e) ↔
        (hasKey r (schemaKey s) = true ∨ totalWidth s.fields % 8 ≠ 0)) ∧
    (∃ r, registerAll allSchemas = Except.ok r) := by
  constructor
  · intro r s
    unfold register
    by_cases h1 : totalWidth s.fields % 8 ≠ 0
    · simp [h1]
    · by_cases h2 : hasKey r (schemaKey s)
      · simp [h1, h2]
      · simp [h1, h2]
  · exact ⟨velbusRegistry, rfl⟩

theorem natToBits_length (n v : Nat) : (natToBits n v).length = n := by
  induction n generalizing v with
  | zero => rfl
  | succ n ih => simp [natToBits, ih]

theorem bitsToNat_append (xs : List Bool) (b : Bool) :
    bitsToNat (xs ++ [b]) = 2 * bitsToNat xs + b.toNat := by
  simp [bitsToNat, List.foldl_append]

theorem bitsToNat_natToBits (n v : Nat) (h : v < 2 ^ n) :
    bitsToNat (natToBits n v) = v := by
  induction n generalizing v with
  | zero =>
      interval_cases v
      rfl
  | succ n ih =>
      have hdiv : v / 2 < 2 ^ n := by
        rw [pow_succ] at h
        omega
      rw [natToBits, bitsToNat_append, ih _ hdiv]
      rcases Nat.mod_two_eq_zero_or_one v with hm | hm <;>
        simp [hm] <;> omega

theorem readBits_encoded (n v : Nat) (rest : List Bool) (h : v < 2 ^ n) :
    readBits n (natToBits n v ++ rest) = some (v, rest) := by
  have hlen : (natToBits n v).length = n := natToBits_length n v
  rw [readBits, if_pos (by simp [hlen])]
  rw [List.take_left' hlen, List.drop_left' hlen, bitsToNat_natToBits n v h]

theorem toTwos_lt (n : Nat) (raw : Int) : toTwos n raw < 2 ^ n := by
  unfold toTwos
  have hpos : (0 : Int) < 2 ^ n := by positivity
  have h1 : raw % (2 : Int) ^ n < 2 ^ n := Int.emod_lt_of_pos raw hpos
  have h2 : (0 : Int) ≤ raw % (2 : Int) ^ n := Int.emod_nonneg raw (by positivity)
  have hcast : (((2 : Nat) ^ n : Nat) : Int) = (2 : Int) ^ n := by push_cast; ring
  omega

theorem fromTwos_toTwos (n : Nat) (raw : Int) (hn : 0 < n)
    (hlo : -((2 : Int) ^ (n - 1)) ≤ raw) (hhi : raw < (2 : Int) ^ (n - 1)) :
    fromTwos n (toTwos n raw) = raw := by
  have hsplit : (2 : Int) ^ n = 2 * (2 : Int) ^ (n - 1) := by
    conv_lhs => rw [show n = (n - 1) + 1 by omega]
    rw [pow_succ]
    ring
  have hcastP : ((2 ^ (n - 1) : Nat) : Int) = (2 : Int) ^ (n - 1) := by push_cast; ring
  have hApos : (0 : Int) < (2 : Int) ^ (n - 1) := by positivity
  unfold toTwos fromTwos
  rcases le_or_lt 0 raw with h0 | h0
  · have hmod : raw % (2 : Int) ^ n = raw := by
      apply Int.emod_eq_of_lt h0
      calc raw < (2 : Int) ^ (n - 1) := hhi
        _ ≤ (2 : Int) ^ n := by linarith
    rw [hmod]
    have hP : raw < ((2 ^ (n - 1) : Nat) : Int) := by rw [hcastP]; exact hhi
    rw [if_pos (by omega)]
    omega
  · have h0' : (0 : Int) ≤ raw + (2 : Int) ^ n := by linarith
    have hge : (2 : Int) ^ (n - 1) ≤ raw + (2 : Int) ^ n := by linarith
    have hlt2 : raw + (2 : Int) ^ n < (2 : Int) ^ n := by linarith
    have hmod : raw % (2 : Int) ^ n = raw + (2 : Int) ^ n := by
      have h1 : (raw + (2 : Int) ^ n * 1) % ((2 : Int) ^ n) = raw % (2 : Int) ^ n :=
        Int.add_mul_emod_self_left raw ((2 : Int) ^ n) 1
      rw [mul_one] at h1
      rw [← h1]
      exact Int.emod_eq_of_lt h0' hlt2
    rw [hmod]
    have hP : ((2 ^ (n - 1) : Nat) : Int) ≤ raw + (2 : Int) ^ n := by rw [hcastP]; exact hge
    rw [if_neg (by omega)]
    have hcastQ : (((2 : Nat) ^ n : Nat) : Int) = (2 : Int) ^ n := by push_cast; ring
    omega

theorem roundHalfAway_close (q : ℚ) :
    |((roundHalfAway q : ℤ) : ℚ) - q| ≤ 1 / 2 := by
  unfold roundHalfAway
  rcases le_or_lt 0 q with h | h
  · rw [if_pos h]
    have h1 : ((⌊q + 1 / 2⌋ : ℤ) : ℚ) ≤ q + 1 / 2 := Int.floor_le _
    have h2 : q + 1 / 2 - 1 < ((⌊q + 1 / 2⌋ : ℤ) : ℚ) := Int.sub_one_lt_floor _
    rw [abs_le]
    constructor <;> linarith
  · rw [if_neg (not_le.mpr h)]
    have h1 : ((⌊-q + 1 / 2⌋ : ℤ) : ℚ) ≤ -q + 1 / 2 := Int.floor_le _
    have h2 : -q + 1 / 2 - 1 < ((⌊-q + 1 / 2⌋ : ℤ) : ℚ) := Int.sub_one_lt_floor _
    rw [abs_le]
    push_cast
    constructor <;> linarith

theorem temp_roundtrip_close (v s : ℚ) (hs : 0 < s) :
    |((roundHalfAway (v / s) : ℤ) : ℚ) * s - v| ≤ s / 2 := by
  have hne : s ≠ 0 := ne_of_gt hs
  have hkey : ((roundHalfAway (v / s) : ℤ) : ℚ) * s - v =
      (((roundHalfAway (v / s) : ℤ) : ℚ) - v / s) * s := by
    field_simp
  rw [hkey, abs_mul, abs_of_pos hs]
  have h1 := roundHalfAway_close (v / s)
  calc |((roundHalfAway (v / s) : ℤ) : ℚ) - v / s| * s ≤ (1 / 2) * s := by
        apply mul_le_mul_of_nonneg_right h1 (le_of_lt hs)
    _ = s / 2 := by ring

theorem decodeField_encodeField (ft : FieldType) (fv : FieldValue)
    (bits rest : List Bool) (hwf : wfField ft) (h : encodeField ft fv = some bits) :
    ∃ fv2, decodeField ft (bits ++ rest) = some (fv2, rest) ∧ closeField ft fv fv2 := by
  cases ft with
  | uint n =>
      cases fv <;> simp [encodeField] at h
      case uint v =>
        obtain ⟨hv, hb⟩ := h
        subst hb
        refine ⟨.uint v, ?_, rfl⟩
        simp [decodeField, readBits_encoded n v rest hv]
  | enum n =>
      cases fv <;> simp [encodeField] at h
      case enum v =>
        obtain ⟨hv, hb⟩ := h
        subst hb
        refine ⟨.enum v, ?_, rfl⟩
        simp [decodeField, readBits_encoded n v rest hv]
  | bitmap n =>
      cases fv <;> simp [encodeField] at h
      case bitmap fs =>
        obtain ⟨hlen, hb⟩ := h
        subst hb
        refine ⟨.bitmap fs, ?_, rfl⟩
        have hrl : fs.reverse.length = n := by simp [hlen]
        rw [decodeField, if_pos (by simp [hrl])]
        rw [List.take_left' hrl, List.drop_left' hrl]
        simp
  | bool =>
      cases fv <;> simp [encodeField] at h
      case bool b =>
        subst h
        exact ⟨.bool b, rfl, rfl⟩
  | temp n s =>
      cases fv <;> simp [encodeField] at h
      case temp v =>
        obtain ⟨⟨hlo, hhi⟩, hb⟩ := h
        subst hb
        obtain ⟨hn, hs⟩ := hwf
        refine ⟨.temp (fromTwos n (toTwos n (roundHalfAway (v / s))) * s), ?_, ?_⟩
        · simp [decodeField,
            readBits_encoded n (toTwos n (roundHalfAway (v / s))) rest
              (toTwos_lt n (roundHalfAway (v / s)))]
        · refine ⟨v, _, rfl, rfl, ?_⟩
          rw [fromTwos_toTwos n (roundHalfAway (v / s)) hn hlo hhi]
          exact temp_roundtrip_close v s hs

theorem decodeFields_encodeFields (fts : List FieldType) (fvs : List FieldValue)
    (bits rest : List Bool) (hwf : ∀ ft ∈ fts, wfField ft)
    (h : encodeFields fts fvs = some bits) :
    ∃ fvs2, decodeFields fts (bits ++ rest) = some (fvs2, rest) ∧
      CloseAll fts fvs fvs2 := by
  induction fts generalizing fvs bits rest with
  | nil =>
      cases fvs with
      | nil =>
          simp [encodeFields] at h
          subst h
          exact ⟨[], by simp [decodeFields], trivial⟩
      | cons fv fvs => simp [encodeFields] at h
  | cons ft fts ih =>
      cases fvs with
      | nil => simp [encodeFields] at h
      | cons fv fvs =>
          cases hb : encodeField ft fv with
          | none => simp [encodeFields, hb] at h
          | some b =>
          cases hr : encodeFields fts fvs with
          | none => simp [encodeFields, hb, hr] at h
          | some r =>
          simp [encodeFields, hb, hr] at h
          subst h
          obtain ⟨fv2, hdf, hclose⟩ :=
            decodeField_encodeField ft fv b (r ++ rest) (hwf ft (by simp)) hb
          obtain ⟨fvs2, hdfs, hcloseall⟩ :=
            ih fvs r rest (fun ft2 hft2 => hwf ft2 (by simp [hft2])) hr
          refine ⟨fv2 :: fvs2, ?_, hclose, hcloseall⟩
          rw [List.append_assoc]
          rw [decodeFields]
          rw [hdf]
          simp [hdfs]

theorem allSchemas_wf :
    ∀ s ∈ allSchemas, s.command < 256 ∧ ∀ ft ∈ s.fields, wfField ft := by
  intro s hs
  simp only [allSchemas, List.mem_cons, List.not_mem_nil, or_false] at hs
  rcases hs with rfl | rfl | rfl | rfl | rfl | rfl | rfl | rfl <;>
    norm_num [moduleStatus8PBU, moduleStatus6IN, moduleStatusVMBELO,
      sensorSettings1, sensorSettings2, sensorSettings3, sensorSettings4,
      sensorSettingsRequest, wfField]

/-- C1: for every registered schema and every in-range assignment of
field values (one where encoding succeeds), decoding the encoded payload
succeeds and yields the original values, except that a temperature field
is recovered only up to the documented rounding loss of `scale / 2`. -/
theorem decode_encode_roundtrip (s : Schema) (hs : s ∈ allSchemas)
    (vals : List FieldValue) (henc : (encodeMessage s vals).isSome = true) :
    ∃ bits vals2, encodeMessage s vals = some bits ∧
      decodeMessage s bits = some vals2 ∧ CloseAll s.fields vals vals2 := by
  obtain ⟨hcmd, hwf⟩ := allSchemas_wf s hs
  rw [Option.isSome_iff_exists] at henc
  obtain ⟨bits0, hb⟩ := henc
  rw [encodeMessage, Option.map_eq_some'] at hb
  obtain ⟨body, hbody, hbits0⟩ := hb
  obtain ⟨vals2, hdec, hclose⟩ :=
    decodeFields_encodeFields s.fields vals body [] hwf hbody
  rw [List.append_nil] at hdec
  refine ⟨natToBits 8 s.command ++ body, vals2, ?_, ?_, hclose⟩
  · rw [encodeMessage, hbody]
    rfl
  · rw [decodeMessage, readBits_encoded 8 s.command body hcmd]
    simp [hdec]

/-- Concrete round-trip witness: `SensorSettings1` with temperatures
0, 21.25, −10.3, 1, −0.25, 63.5, −64 — including values that exercise
the half-away rounding. -/
theorem decode_encode_roundtrip_witness :
    (sensorSettings1 ∈ allSchemas ∧
      (encodeMessage sensorSettings1
        [.temp 0, .temp (85 / 4), .temp (-103 / 10), .temp 1,
          .temp (-1 / 4), .temp (127 / 2), .temp (-64)]).isSome = true) ∧
    (∃ bits vals2, encodeMessage sensorSettings1
        [.temp 0, .temp (85 / 4), .temp (-103 / 10), .temp 1,
          .temp (-1 / 4), .temp (127 / 2), .temp (-64)] = some bits ∧
      decodeMessage sensorSettings1 bits = some vals2 ∧
      CloseAll sensorSettings1.fields
        [.temp 0, .temp (85 / 4), .temp (-103 / 10), .temp 1,
          .temp (-1 / 4), .temp (127 / 2), .temp (-64)] vals2) :=
  ⟨⟨by simp [allSchemas],
      by norm_num [encodeMessage, encodeFields, encodeField, sensorSettings1,
        roundHalfAway, toTwos]⟩,
    decode_encode_roundtrip sensorSettings1 (by simp [allSchemas]) _
      (by norm_num [encodeMessage, encodeFields, encodeField, sensorSettings1,
        roundHalfAway, toTwos])⟩

theorem updEntries_not_mem (es : List (JKey × JVal)) (k : JKey)
    (f : Option JVal → JVal) (h : k ∉ keysOf es) :
    updEntries es k f = es ++ [(k, f none)] := by
  induction es with
  | nil => rfl
  | cons kv rest ih =>
      obtain ⟨k2, v⟩ := kv
      have hne : k2 ≠ k := by
        intro hcontra
        exact h (by simp [keysOf, hcontra])
      rw [updEntries, if_neg hne, ih (fun hm => h (by simp [keysOf] at hm ⊢; right; exact hm))]
      simp

theorem applyPatches_addPatches (es done : List (JKey × JVal))
    (hdisj : ∀ k ∈ keysOf es, k ∉ keysOf done) (hnodup : (keysOf es).Nodup) :
    applyPatches (.obj done) (addPatches es) = .obj (done ++ es) := by
  induction es generalizing done with
  | nil => simp [addPatches, applyPatches]
  | cons kv rest ih =>
      obtain ⟨k, v⟩ := kv
      simp only [addPatches, applyPatches, List.foldl_cons]
      rw [show applyPatch (JVal.obj done) ⟨[k], .add, some v⟩ =
        JVal.obj (updEntries done k (fun _ => v)) from rfl]
      rw [updEntries_not_mem done k _ (hdisj k (by simp [keysOf]))]
      rw [keysOf, List.map_cons, List.nodup_cons] at hnodup
      have hr := ih (done ++ [(k, v)]) ?hd ?hn
      · simpa [applyPatches, List.append_assoc] using hr
      case hd =>
        intro k2 hk2
        have hk2x : k2 ∈ keysOf ((k, v) :: rest) := by
          simp only [keysOf, List.map_cons, List.mem_cons]
          exact Or.inr hk2
        have hnotdone : k2 ∉ keysOf done := hdisj k2 hk2x
        simp only [keysOf, List.map_append, List.map_cons, List.map_nil,
          List.mem_append, List.mem_singleton]
        rintro (hin | hin)
        · exact hnotdone hin
        · rw [hin] at hk2
          exact hnodup.1 hk2
      case hn => exact hnodup.2

theorem applyPatches_emit (s : JVal) (m : Mutation) (h : MutWf m) :
    applyPatches s (emit s m) = applyMut s m := by
  cases m with
  | set path v =>
      by_cases hex : pathExistsB path s <;>
        simp [emit, applyPatches, applyMut, applyPatch, hex]
  | del path => simp [emit, applyPatches, applyMut, applyPatch]
  | replaceAll es =>
      simp only [emit, applyPatches, List.foldl_cons]
      rw [show applyPatch s ⟨[], .remove, none⟩ = JVal.obj [] from rfl]
      have hnodup : (keysOf es).Nodup := h
      have hr := applyPatches_addPatches es [] (by simp [keysOf]) hnodup
      simpa [applyPatches, applyMut] using hr

theorem runMuts_replay (ms : List Mutation) (s : JVal) (h : ∀ m ∈ ms, MutWf m) :
    applyPatches s (runMuts s ms).2 = (runMuts s ms).1 := by
  induction ms generalizing s with
  | nil => simp [runMuts, applyPatches]
  | cons m ms ih =>
      simp only [runMuts]
      rw [applyPatches, List.foldl_append]
      rw [show List.foldl applyPatch s (emit s m) = applyPatches s (emit s m) from rfl]
      rw [applyPatches_emit s m (h m (by simp))]
      exact ih (applyMut s m) (fun m2 hm2 => h m2 (by simp [hm2]))

/-- C7: replaying the full emitted patch history from the empty state
reconstructs the current state exactly, for every mutation sequence
(including wholesale replacements, which are emitted as the
clear-then-rebuild sequence shown in the second conjunct). -/
theorem patch_replay_reconstructs (ms : List Mutation) (h : ∀ m ∈ ms, MutWf m) :
    applyPatches emptyState (runMuts emptyState ms).2 = (runMuts emptyState ms).1 ∧
    ∀ (s : JVal) (es : List (JKey × JVal)),
      emit s (.replaceAll es) = ⟨[], .remove, none⟩ :: addPatches es :=
  ⟨runMuts_replay ms emptyState h, fun _ _ => rfl⟩

/-- Concrete mutation history for the replay witness: a nested write, a
wholesale replacement and a removal. -/
theorem patch_replay_reconstructs_witness :
    (∀ m ∈ ([.set [.str "a", .num 0] (.scalar 1),
        .replaceAll [(.str "b", .scalar 2), (.str "c", .obj [])],
        .del [.str "b"]] : List Mutation), MutWf m) ∧
    (applyPatches emptyState
        (runMuts emptyState [.set [.str "a", .num 0] (.scalar 1),
          .replaceAll [(.str "b", .scalar 2), (.str "c", .obj [])],
          .del [.str "b"]]).2 =
      (runMuts emptyState [.set [.str "a", .num 0] (.scalar 1),
          .replaceAll [(.str "b", .scalar 2), (.str "c", .obj [])],
          .del [.str "b"]]).1 ∧
      ∀ (s : JVal) (es : List (JKey × JVal)),
        emit s (.replaceAll es) = ⟨[], .remove, none⟩ :: addPatches es) :=
  ⟨by decide, patch_replay_reconstructs _ (by decide)⟩
